import Mathlib

set_option maxRecDepth 8000

/-!
Verification of the NetBSD Linux-compatibility DMA pool allocator
(sys/external/bsd/common/linux/linux_dmapool.c).

The file shallowly embeds the allocator: segments, the rb-tree segment index,
the vmem-based address-space arena, and the public pool operations
(create / destroy / alloc / zalloc / free / sync).  Machine addresses and
sizes are modelled as `Nat`; backing-store (bus_dma) behaviour is supplied by
an explicit environment of provider responses.  The vmem arena and the rbtree
container are NetBSD kernel subsystems whose sources are not part of the
extract, so they are modelled from the specification (first-fit reservation
over a list of free intervals, keyed ordered index with floor lookup); the
code of linux_dmapool.c itself is translated directly.
-/

namespace DmaPool

/-- Modelled from the spec: `__GFP_ZERO` is the only gfp flag `dma_pool_alloc`
interprets (zero-fill request); all other bits are opaque to the allocator.
The numeric bit value is immaterial to the model. -/
def __GFP_ZERO : Nat := 256

/-- Macro `powerof2` from sys/param.h: `((((x)-1)&(x))==0)`.  On `Nat`,
`0 - 1 = 0`, which yields the same truth value as the wrapped C computation
for `x = 0` (both accept 0). -/
def powerof2 (x : Nat) : Bool := (x - 1) &&& x == 0

/-- One backing segment, mirroring `struct dma_pool_segment`: `base` and
`len` are `dmam->dm_segs[0].ds_addr` / `ds_len` (equal to `dseg.ds_addr` /
`ds_len` after loading), `virt` is `virt_addr`, and `token` identifies the
bus_dma resources (`dmam`, `dseg`) for release accounting. -/
structure Segment where
  base : Nat
  len : Nat
  virt : Nat
  token : Nat
deriving DecidableEq

/-- Containment of a bus address in a segment's range
`[bus_base_address, bus_base_address + length)`. -/
def segContains (g : Segment) (a : Nat) : Prop :=
  g.base ≤ a ∧ a < g.base + g.len

instance decSegContains (g : Segment) (a : Nat) : Decidable (segContains g a) :=
  decidable_of_iff (g.base ≤ a ∧ a < g.base + g.len) Iff.rfl

/-- Disjointness of two segments' bus-address ranges. -/
def segDisjoint (g t : Segment) : Prop :=
  g.base + g.len ≤ t.base ∨ t.base + t.len ≤ g.base

instance decSegDisjoint : DecidableRel segDisjoint := fun g t =>
  decidable_of_iff (g.base + g.len ≤ t.base ∨ t.base + t.len ≤ g.base) Iff.rfl

/-- Modelled from the spec (and rbtree(3); the rbtree container source is not
part of the extract): keyed insertion into the segment index.  The comparators
in src (`dma_pool_compare_psegs_nodes` / `_key`) order nodes solely by the
segment's bus base address, so the tree is a map keyed by `base`;
`rb_tree_insert_node` keeps the existing node and drops the new one when the
keys compare equal, and performs no other check.  The tree is modelled as a
list of segments. -/
def rb_tree_insert_node (idx : List Segment) (g : Segment) : List Segment :=
  if idx.any (fun t => t.base == g.base) then idx else g :: idx

/-- Modelled from the spec (rbtree floor query; not part of the extract):
`rb_tree_find_node_leq` returns the node with the greatest key at or below
`addr`, or NULL (`none`) when every key is above `addr`. -/
def rb_tree_find_node_leq (idx : List Segment) (addr : Nat) : Option Segment :=
  idx.foldl (fun acc g =>
    if g.base ≤ addr then
      match acc with
      | none => some g
      | some t => if t.base < g.base then some g else some t
    else acc) none

/-- Possible outcomes of `dma_pool_find_segment`. -/
inductive FindResult where
  | found (g : Segment)
  | panicked
  | nullDeref
deriving DecidableEq

/-- Translation of `dma_pool_find_segment`: floor lookup, then the containment
test `addr >= pseg->dseg.ds_addr && addr < pseg->dseg.ds_addr +
pseg->dseg.ds_len`, else `panic("Pool segment not found")`.  The containment
test reads through `pseg` before any NULL check, so when the floor lookup
returns NULL the function faults on a null dereference (`nullDeref`) instead
of reaching the controlled panic. -/
def dma_pool_find_segment (idx : List Segment) (addr : Nat) : FindResult :=
  match rb_tree_find_node_leq idx addr with
  | none => .nullDeref
  | some pseg =>
    if pseg.base ≤ addr ∧ addr < pseg.base + pseg.len then .found pseg
    else .panicked

/-- Immutable pool parameters from `struct dma_pool` (`block_size`, `align`,
`boundary`; `align` is also the vmem quantum). -/
structure PoolParams where
  block_size : Nat
  align : Nat
  boundary : Nat
deriving DecidableEq

/-- One response of the backing-store environment for one grow attempt,
covering the five fallible steps of `dma_pool_alloc_segment`: `kmem_alloc` of
the bookkeeping record, `bus_dmamap_create`, `bus_dmamem_alloc`,
`bus_dmamem_map`, `bus_dmamap_load`.  `needsWait` records that servicing the
request would have to block; when waiting is forbidden the steps fail instead.
`seg` is the segment the backing layer delivers when every step succeeds. -/
structure ProviderCall where
  kmemOk : Bool
  createOk : Bool
  allocOk : Bool
  mapOk : Bool
  loadOk : Bool
  needsWait : Bool
  seg : Segment
deriving DecidableEq

/-- Mutable pool state: `free` models the vmem arena's free intervals
(start, length); `segs` is the rb tree of segments (`pool->psegs`); `busy`
models vmem's busy boundary tags (the start addresses of currently allocated
blocks), which vmem uses to validate `vmem_xfree`. -/
structure PoolState where
  free : List (Nat × Nat)
  segs : List Segment
  busy : List Nat
deriving DecidableEq

/-- Round `a` up to a multiple of `q` (`q = 0` means no rounding). -/
def alignUp (a q : Nat) : Nat :=
  if q = 0 then a else ((a + q - 1) / q) * q

/-- Does the block `[a, a + size)` straddle a `bdy`-aligned multiple
(`bdy = 0` disables the constraint)?  Straddling means the first and last byte
fall in different `bdy`-sized windows. -/
def crosses (a size bdy : Nat) : Bool :=
  bdy != 0 && (a / bdy != (a + size - 1) / bdy)

/-- Modelled from the spec: remaining free space of the interval
`[s, s + l)` after carving the block `[a, a + size)` out of it. -/
def carve (s l a size : Nat) : List (Nat × Nat) :=
  (if s < a then [(s, a - s)] else []) ++
  (if a + size < s + l then [(a + size, s + l - (a + size))] else [])

/-- Modelled from the spec: can a `size`-byte, `align`-aligned block that does
not straddle a `bdy` multiple be placed in the free interval `[s, s + l)`?
Returns the placement (the lowest aligned candidate, bumped past the next
boundary multiple once if it would straddle one). -/
def fitIn (s l size align bdy : Nat) : Option Nat :=
  let a := alignUp s align
  if crosses a size bdy then
    let a2 := alignUp ((a / bdy + 1) * bdy) align
    if a2 + size ≤ s + l && !crosses a2 size bdy then some a2 else none
  else
    if a + size ≤ s + l then some a else none

/-- Modelled from the spec: first-fit search over the arena's free intervals.
Returns the chosen address and the free list with the block carved out. -/
def tryFit (size align bdy : Nat) : List (Nat × Nat) → Option (Nat × List (Nat × Nat))
  | [] => none
  | (s, l) :: rest =>
    match fitIn s l size align bdy with
    | some a => some (a, carve s l a size ++ rest)
    | none =>
      match tryFit size align bdy rest with
      | some (a, f) => some (a, (s, l) :: f)
      | none => none

/-- Translation of `dma_pool_alloc_segment` (the vmem import callback): the
five fallible backing-store steps in source order, each undone on a later
failure; only after all succeed is the segment inserted into `pool->psegs`
and its `ds_addr`/`ds_len` returned to vmem.  `sleepOk` is `VM_SLEEP` from the
vmem flags (propagated as `KM_SLEEP`/`BUS_DMA_WAITOK`); a step that would have
to wait fails when waiting is forbidden.  Returns the delivered segment (or
`none` on failure), the new index, and whether the call slept. -/
def dma_pool_alloc_segment (segs : List Segment) (call : ProviderCall)
    (sleepOk : Bool) : Option Segment × List Segment × Bool :=
  let canWait := sleepOk || !call.needsWait
  let waited := call.needsWait && sleepOk
  if !(call.kmemOk && canWait) then (none, segs, waited)
  else if !(call.createOk && canWait) then (none, segs, waited)
  else if !(call.allocOk && canWait) then (none, segs, waited)
  else if !(call.mapOk && canWait) then (none, segs, waited)
  else if !(call.loadOk && canWait) then (none, segs, waited)
  else (some call.seg, rb_tree_insert_node segs call.seg, waited)

/-- Result of a vmem reservation: the granted address (or `none`), the new
pool state, whether the backing call slept, whether an import (grow) was
attempted, and the newly delivered segment if any. -/
structure XallocRet where
  addr : Option Nat
  st : PoolState
  waited : Bool
  imported : Bool
  newSeg : Option Segment

/-- Modelled from the spec: `vmem_xalloc` — try to satisfy the request from
existing free space; on failure invoke the import callback
(`dma_pool_alloc_segment`) for one new segment, add the segment's entire
range to free space, and retry exactly once.  A failed import leaves the
free-space accounting untouched. -/
def vmem_xalloc (st : PoolState) (call : ProviderCall)
    (size align bdy : Nat) (sleepOk : Bool) : XallocRet :=
  match tryFit size align bdy st.free with
  | some (a, f) =>
    ⟨some a, { st with free := f, busy := a :: st.busy }, false, false, none⟩
  | none =>
    match dma_pool_alloc_segment st.segs call sleepOk with
    | (none, segs1, w) => ⟨none, { st with segs := segs1 }, w, true, none⟩
    | (some seg, segs1, w) =>
      let free0 := st.free ++ [(seg.base, seg.len)]
      match tryFit size align bdy free0 with
      | some (a, f) => ⟨some a, ⟨f, segs1, a :: st.busy⟩, w, true, some seg⟩
      | none => ⟨none, ⟨free0, segs1, st.busy⟩, w, true, some seg⟩

/-- Modelled from the spec: `vmem_xfree` — return `[addr, addr + size)` to
free space.  vmem validates the busy boundary tag for `addr`; releasing an
address that is not currently allocated is a fatal misuse, modelled as
`none`. -/
def vmem_xfree (st : PoolState) (addr size : Nat) : Option PoolState :=
  if addr ∈ st.busy then
    some { st with free := (addr, size) :: st.free, busy := st.busy.erase addr }
  else none

/-- Byte memory, local (kernel virtual) addresses to byte values. -/
def Mem : Type := Nat → Nat

/-- Translation of the `memset(virt_addr, 0, pool->block_size)` call:
zero the `n` bytes starting at `p`. -/
def memset (m : Mem) (p n : Nat) : Mem :=
  fun a => if p ≤ a ∧ a < p + n then 0 else m a

/-- Observable outcome of `dma_pool_alloc`: NULL return, a (virtual address,
bus-address handle) pair, or a crash inside `dma_pool_find_segment`. -/
inductive AllocOutcome where
  | failure
  | success (virt handle : Nat)
  | crash
deriving DecidableEq

/-- Full result of one `dma_pool_alloc` call. -/
structure AllocRet where
  outcome : AllocOutcome
  st : PoolState
  mem : Mem
  waited : Bool
  imported : Bool
  newSeg : Option Segment

/-- Translation of `dma_pool_alloc`: reserve `block_size` bytes from the vmem
arena with the pool's `align` and `boundary` and hardcoded
`VM_BESTFIT | VM_SLEEP` flags; on failure return NULL.  On success look the
address up with `dma_pool_find_segment`, compute
`virt_addr = pseg->virt_addr + (addr - phys_start)`, and `memset` the block to
zero iff `gfp & __GFP_ZERO` is set (the only gfp flag the function
interprets). -/
def dma_pool_alloc (p : PoolParams) (st : PoolState) (mem : Mem)
    (call : ProviderCall) (gfp : Nat) : AllocRet :=
  match vmem_xalloc st call p.block_size p.align p.boundary true with
  | ⟨none, st1, w, i, ns⟩ => ⟨.failure, st1, mem, w, i, ns⟩
  | ⟨some addr, st1, w, i, ns⟩ =>
    match dma_pool_find_segment st1.segs addr with
    | .found pseg =>
      ⟨.success (pseg.virt + (addr - pseg.base)) addr, st1,
       if gfp &&& __GFP_ZERO ≠ 0 then
         memset mem (pseg.virt + (addr - pseg.base)) p.block_size
       else mem,
       w, i, ns⟩
    | .panicked => ⟨.crash, st1, mem, w, i, ns⟩
    | .nullDeref => ⟨.crash, st1, mem, w, i, ns⟩

/-- Translation of `dma_pool_zalloc`: `dma_pool_alloc(pool, gfp | __GFP_ZERO,
handle)`. -/
def dma_pool_zalloc (p : PoolParams) (st : PoolState) (mem : Mem)
    (call : ProviderCall) (gfp : Nat) : AllocRet :=
  dma_pool_alloc p st mem call (gfp ||| __GFP_ZERO)

/-- Translation of `dma_pool_free`: `vmem_xfree(pool->vm, handle,
pool->block_size)`; the virtual-address argument is unused in the source. -/
def dma_pool_free (p : PoolParams) (st : PoolState) (handle : Nat) :
    Option PoolState :=
  vmem_xfree st handle p.block_size

/-- Observable outcome of `dma_pool_sync`. -/
inductive SyncOutcome where
  | synced (token offset len ops : Nat)
  | panicked
  | nullDeref
deriving DecidableEq

/-- Translation of `dma_pool_sync`: look the handle up with
`dma_pool_find_segment` and delegate to
`bus_dmamap_sync(dmat, pseg->dmam, handle - phys_start, block_size, ops)`. -/
def dma_pool_sync (p : PoolParams) (st : PoolState) (handle ops : Nat) :
    SyncOutcome :=
  match dma_pool_find_segment st.segs handle with
  | .found pseg => .synced pseg.token (handle - pseg.base) p.block_size ops
  | .panicked => .panicked
  | .nullDeref => .nullDeref

/-- Translation of `dma_pool_destroy`: iterate over `pool->psegs`
(`RB_TREE_FOREACH_SAFE`) releasing each segment with `dma_pool_free_segment`,
then discard the pool's own bookkeeping.  The result is the sequence of
segments released back to the backing store, in iteration order. -/
def dma_pool_destroy (st : PoolState) : List Segment :=
  st.segs

/-- Result of `dma_pool_create`. -/
inductive CreateResult where
  | ok (p : PoolParams) (st : PoolState)
  | assertFailed
  | null
deriving DecidableEq

/-- Translation of `dma_pool_create`: `kmem_alloc` of the pool record (NULL
check), then `KASSERT(powerof2(align))` — a diagnostic assertion that is
compiled out in non-DIAGNOSTIC kernels (`diagnostic = false`) — then
`vmem_xcreate` (NULL check), then the pool is returned with an empty arena
and index.  `kmemOk` / `vmemOk` model the two fallible host allocations. -/
def dma_pool_create (diagnostic kmemOk vmemOk : Bool)
    (block_size align boundary : Nat) : CreateResult :=
  if !kmemOk then .null
  else if diagnostic && !powerof2 align then .assertFailed
  else if !vmemOk then .null
  else .ok ⟨block_size, align, boundary⟩ ⟨[], [], []⟩

/-- One client operation on a pool. -/
inductive Op where
  | alloc (gfp : Nat)
  | free (h : Nat)
deriving DecidableEq

/-- State threaded through a run of client operations: the pool state, the
remaining backing-store environment, every handle ever returned by an
allocation (most recent first), and every segment the backing store ever
delivered to this pool (most recent first). -/
structure RunState where
  pool : PoolState
  env : List ProviderCall
  rets : List Nat
  created : List Segment
deriving DecidableEq

/-- Backing-store response used when the environment is exhausted: the
provider fails outright. -/
def failCall : ProviderCall :=
  ⟨false, false, false, false, false, false, ⟨0, 0, 0, 0⟩⟩

/-- One step of a client trace.  An allocation consumes the next environment
response iff the arena attempted to grow.  A crash inside the allocator and a
free of a handle that is not currently allocated (fatal vmem misuse) end the
trace (`none`). -/
def runStep (p : PoolParams) (rs : RunState) : Op → Option RunState
  | .alloc gfp =>
    let call := rs.env.headD failCall
    let r := dma_pool_alloc p rs.pool (fun _ => 0) call gfp
    let env1 := if r.imported then rs.env.tail else rs.env
    let created1 := match r.newSeg with
      | some s => s :: rs.created
      | none => rs.created
    match r.outcome with
    | .failure => some ⟨r.st, env1, rs.rets, created1⟩
    | .success _ h => some ⟨r.st, env1, h :: rs.rets, created1⟩
    | .crash => none
  | .free h =>
    (dma_pool_free p rs.pool h).map (fun st1 => ⟨st1, rs.env, rs.rets, rs.created⟩)

/-- Run a list of client operations. -/
def runOps (p : PoolParams) : RunState → List Op → Option RunState
  | rs, [] => some rs
  | rs, op :: ops =>
    match runStep p rs op with
    | some rs1 => runOps p rs1 ops
    | none => none

/-- Initial run state of a freshly created pool: empty arena, empty index. -/
def initRun (env : List ProviderCall) : RunState :=
  ⟨⟨[], [], []⟩, env, [], []⟩

/-- The address range `[a, a + l)` lies inside one of the listed segments. -/
def inSeg (segs : List Segment) (a l : Nat) : Prop :=
  ∃ g ∈ segs, g.base ≤ a ∧ a + l ≤ g.base + g.len

/-- A free interval is well-placed: inside a tracked segment, with start and
length both multiples of the pool's block size. -/
def ivOk (p : PoolParams) (segs : List Segment) (iv : Nat × Nat) : Prop :=
  inSeg segs iv.1 iv.2 ∧ p.block_size ∣ iv.1 ∧ p.block_size ∣ iv.2

/-- A handle is well-placed: its block lies inside a tracked segment and its
address is a multiple of the pool's block size. -/
def handleOk (p : PoolParams) (segs : List Segment) (h : Nat) : Prop :=
  inSeg segs h p.block_size ∧ p.block_size ∣ h

/-- The segments a backing-store environment would deliver. -/
def segsOfEnv (env : List ProviderCall) : List Segment :=
  env.map (fun c => c.seg)

/-- Structural invariant of a run, independent of block alignment: the index
holds exactly the segments ever delivered; all tracked and pending segments
have positive length; and tracked plus pending segments are pairwise
disjoint. -/
structure SegInv (rs : RunState) : Prop where
  created_eq : rs.pool.segs = rs.created
  lens : ∀ g ∈ rs.pool.segs ++ segsOfEnv rs.env, 0 < g.len
  disj : (rs.pool.segs ++ segsOfEnv rs.env).Pairwise segDisjoint

/-- Block-placement invariant of a run: every free interval, every busy
(allocated) block, and every handle ever returned is well-placed, and all
tracked and pending segments have base and length that are multiples of the
block size. -/
structure DvdInv (p : PoolParams) (rs : RunState) : Prop where
  freeOk : ∀ iv ∈ rs.pool.free, ivOk p rs.pool.segs iv
  busyOk : ∀ h ∈ rs.pool.busy, handleOk p rs.pool.segs h
  retsOk : ∀ h ∈ rs.rets, handleOk p rs.pool.segs h
  segsDvd : ∀ g ∈ rs.pool.segs ++ segsOfEnv rs.env,
    p.block_size ∣ g.base ∧ p.block_size ∣ g.len

/-- C10: `dma_pool_zalloc(pool, gfp, handle)` returns the same result and has
the same effect as `dma_pool_alloc(pool, gfp | __GFP_ZERO, handle)`:
zero-filling allocation is definitionally the flagged form of ordinary
allocation. -/
theorem zalloc_is_alloc_with_zero_flag (p : PoolParams) (st : PoolState)
    (mem : Mem) (call : ProviderCall) (gfp : Nat) :
    dma_pool_zalloc p st mem call gfp =
      dma_pool_alloc p st mem call (gfp ||| __GFP_ZERO) := rfl

/-- C2, code evaluated at the failing input: on a pool with no segment at or
below the handle (here an empty segment tree), `dma_pool_sync`'s segment
lookup dereferences the NULL result of the floor lookup inside the
containment test, an uncontrolled fault, and never reaches the controlled
`panic("Pool segment not found")`. -/
theorem sync_no_floor_hits_null_deref :
    dma_pool_sync ⟨64, 64, 0⟩ ⟨[], [], []⟩ 0 1 = .nullDeref ∧
    dma_pool_sync ⟨64, 64, 0⟩ ⟨[], [], []⟩ 0 1 ≠ .panicked ∧
    dma_pool_find_segment [] 0 = .nullDeref := by decide

/-- C8 counterexample: `align = 3` is not a power of two, yet in a
non-DIAGNOSTIC build `dma_pool_create` still returns a pool; the violation is
not rejected at the API boundary. -/
theorem create_nonpow2_align_still_returns_pool :
    powerof2 3 = false ∧
    dma_pool_create false true true 64 3 0 = .ok ⟨64, 3, 0⟩ ⟨[], [], []⟩ := by
  decide

/-- C8 amended: a non-power-of-two `align` is checked only by the diagnostic
assertion `KASSERT(powerof2(align))`: with diagnostics compiled in creation
asserts, and without them the pool is created and returned anyway. -/
theorem create_align_check_is_diagnostic_assert_only (bs align bdy : Nat)
    (h : powerof2 align = false) :
    dma_pool_create true true true bs align bdy = .assertFailed ∧
    dma_pool_create false true true bs align bdy =
      .ok ⟨bs, align, bdy⟩ ⟨[], [], []⟩ := by
  unfold dma_pool_create
  simp [h]

/-- C8 witness: the amended statement applied at `align = 3`. -/
theorem create_align_check_witness :
    dma_pool_create true true true 64 3 0 = .assertFailed ∧
    dma_pool_create false true true 64 3 0 = .ok ⟨64, 3, 0⟩ ⟨[], [], []⟩ :=
  create_align_check_is_diagnostic_assert_only 64 3 0 (by decide)

/-- C7 counterexample: inserting a segment whose range overlaps an existing
segment's range (different base addresses) is not rejected — the index simply
gains the overlapping segment, so the post-insertion ranges are not
disjoint. -/
theorem insert_overlapping_segment_not_rejected :
    rb_tree_insert_node [⟨0, 4096, 1000, 0⟩] ⟨64, 4096, 2000, 1⟩ =
      [⟨64, 4096, 2000, 1⟩, ⟨0, 4096, 1000, 0⟩] ∧
    ¬ segDisjoint ⟨0, 4096, 1000, 0⟩ ⟨64, 4096, 2000, 1⟩ := by decide

/-- C7 amended: insertion into the segment index performs no range-overlap
check and cannot fail; the tree is keyed solely by base address (an exact
duplicate base leaves the index unchanged, keeping the existing node), and
the index remains pairwise disjoint after an insertion exactly when the new
segment's range is disjoint from every existing one, as the provider
contract guarantees. -/
theorem insert_disjoint_needs_provider_contract (idx : List Segment)
    (g : Segment) (hidx : idx.Pairwise segDisjoint)
    (hg : ∀ t ∈ idx, segDisjoint g t) :
    (rb_tree_insert_node idx g).Pairwise segDisjoint ∧
    (∀ t ∈ idx, t.base = g.base → rb_tree_insert_node idx g = idx) := by
  unfold rb_tree_insert_node
  by_cases hany : idx.any (fun t => t.base == g.base) = true
  · rw [if_pos hany]
    exact ⟨hidx, fun t ht hb => rfl⟩
  · rw [if_neg hany]
    refine ⟨List.Pairwise.cons hg hidx, ?_⟩
    intro t ht hb
    exact absurd (List.any_eq_true.mpr ⟨t, ht, by simp [hb]⟩) hany

/-- C7 witness: the amended statement applied to one disjoint insertion. -/
theorem insert_disjoint_witness :
    (rb_tree_insert_node [⟨0, 4096, 1000, 0⟩]
      ⟨8192, 4096, 3000, 2⟩).Pairwise segDisjoint :=
  (insert_disjoint_needs_provider_contract [⟨0, 4096, 1000, 0⟩]
    ⟨8192, 4096, 3000, 2⟩ (by simp) (by simp [segDisjoint])).1

/-- C3 counterexample: with gfp carrying no sleep-permission bit (a
non-blocking request, `gfp = 0`), no free space, and a backing-store grow
that would block (`needsWait = true`), `dma_pool_alloc` still waits and
succeeds instead of returning FAILURE: the vmem reservation is issued with
hardcoded `VM_BESTFIT | VM_SLEEP` flags. -/
theorem nonblocking_request_still_waits_and_succeeds :
    (dma_pool_alloc ⟨64, 64, 0⟩ ⟨[], [], []⟩ (fun _ => 0)
        ⟨true, true, true, true, true, true, ⟨0, 4096, 10000, 7⟩⟩ 0).outcome =
      .success 10000 0 ∧
    (dma_pool_alloc ⟨64, 64, 0⟩ ⟨[], [], []⟩ (fun _ => 0)
        ⟨true, true, true, true, true, true, ⟨0, 4096, 10000, 7⟩⟩ 0).waited =
      true := by decide

/-- C3 amended: `dma_pool_alloc` does not honor a caller blocking flag — the
arena reservation always carries `VM_SLEEP` — and the gfp argument influences
the call's result only through the `__GFP_ZERO` bit: two gfp values agreeing
on that bit produce identical results. -/
theorem alloc_ignores_gfp_except_zero_flag (p : PoolParams) (st : PoolState)
    (mem : Mem) (call : ProviderCall) (gfp gfp' : Nat)
    (h : gfp &&& __GFP_ZERO = gfp' &&& __GFP_ZERO) :
    dma_pool_alloc p st mem call gfp = dma_pool_alloc p st mem call gfp' := by
  unfold dma_pool_alloc
  rw [h]

/-- C3 witness: the amended statement applied to gfp values 8 and 0. -/
theorem alloc_ignores_gfp_witness :
    dma_pool_alloc ⟨64, 64, 0⟩ ⟨[], [], []⟩ (fun _ => 0) failCall 8 =
      dma_pool_alloc ⟨64, 64, 0⟩ ⟨[], [], []⟩ (fun _ => 0) failCall 0 :=
  alloc_ignores_gfp_except_zero_flag ⟨64, 64, 0⟩ ⟨[], [], []⟩ (fun _ => 0)
    failCall 8 0 (by decide)

/-- C6: when a grow attempt is needed (no existing free space fits) and any
of the five backing-store steps of `dma_pool_alloc_segment` fails, the
allocation returns FAILURE with the pool state exactly as before: no segment
enters the index and the free-space accounting is unchanged. -/
theorem alloc_provider_failure_leaves_state_unchanged (p : PoolParams)
    (st : PoolState) (mem : Mem) (call : ProviderCall) (gfp : Nat)
    (hnofit : tryFit p.block_size p.align p.boundary st.free = none)
    (hfail : call.kmemOk = false ∨ call.createOk = false ∨
      call.allocOk = false ∨ call.mapOk = false ∨ call.loadOk = false) :
    dma_pool_alloc p st mem call gfp =
      ⟨.failure, st, mem, call.needsWait, true, none⟩ := by
  have hseg : dma_pool_alloc_segment st.segs call true =
      (none, st.segs, call.needsWait) := by
    unfold dma_pool_alloc_segment
    simp only [Bool.true_or, Bool.and_true]
    rcases hfail with h | h | h | h | h <;> simp [h]
  unfold dma_pool_alloc vmem_xalloc
  rw [hnofit, hseg]

/-- C6 witness: the statement applied to an empty pool and a failing
provider. -/
theorem alloc_provider_failure_witness :
    dma_pool_alloc ⟨64, 64, 0⟩ ⟨[], [], []⟩ (fun _ => 0) failCall 0 =
      ⟨.failure, ⟨[], [], []⟩, fun _ => 0, false, true, none⟩ :=
  alloc_provider_failure_leaves_state_unchanged ⟨64, 64, 0⟩ ⟨[], [], []⟩
    (fun _ => 0) failCall 0 (by decide) (Or.inl rfl)

/-- C4: a successful allocation with `__GFP_ZERO` set zeroes exactly the
`block_size` bytes at the returned local pointer and leaves every other byte
untouched; without `__GFP_ZERO` the memory is not modified at all. -/
theorem alloc_zero_fill_exact (p : PoolParams) (st : PoolState) (mem : Mem)
    (call : ProviderCall) (gfp : Nat) (v h : Nat)
    (hs : (dma_pool_alloc p st mem call gfp).outcome = .success v h) :
    (gfp &&& __GFP_ZERO ≠ 0 →
      ∀ a, ((v ≤ a ∧ a < v + p.block_size) →
              (dma_pool_alloc p st mem call gfp).mem a = 0) ∧
           (¬(v ≤ a ∧ a < v + p.block_size) →
              (dma_pool_alloc p st mem call gfp).mem a = mem a)) ∧
    (gfp &&& __GFP_ZERO = 0 →
      (dma_pool_alloc p st mem call gfp).mem = mem) := by
  unfold dma_pool_alloc at hs ⊢
  cases hx : vmem_xalloc st call p.block_size p.align p.boundary true with
  | mk addr st1 w i ns =>
    rw [hx] at hs
    cases addr with
    | none => simp at hs
    | some ad =>
      dsimp only at hs ⊢
      cases hf : dma_pool_find_segment st1.segs ad with
      | found pseg =>
        rw [hf] at hs
        dsimp only at hs ⊢
        simp only [AllocOutcome.success.injEq] at hs
        obtain ⟨hv, hh⟩ := hs
        rw [hv]
        constructor
        · intro hz a
          rw [if_pos hz]
          refine ⟨fun hin => ?_, fun hout => ?_⟩
          · simp only [memset]
            rw [if_pos hin]
          · simp only [memset]
            rw [if_neg hout]
        · intro hz
          rw [if_neg (by simp [hz])]
      | panicked => rw [hf] at hs; simp at hs
      | nullDeref => rw [hf] at hs; simp at hs

/-- C4 witness: the zero-fill statement applied to a concrete successful
allocation with prior memory contents all 1. -/
theorem alloc_zero_fill_witness :
    (dma_pool_alloc ⟨64, 64, 0⟩ ⟨[], [], []⟩ (fun _ => 1)
        ⟨true, true, true, true, true, false, ⟨0, 4096, 10000, 7⟩⟩ 256).mem
      10005 = 0 :=
  ((alloc_zero_fill_exact ⟨64, 64, 0⟩ ⟨[], [], []⟩ (fun _ => 1)
      ⟨true, true, true, true, true, false, ⟨0, 4096, 10000, 7⟩⟩ 256 10000 0
      (by decide)).1 (by decide) 10005).1 (by decide)

/-- C5: on every successful allocation the returned local pointer equals the
owning segment's local pointer plus the offset of the handle from that
segment's bus base address, where the owning segment is the one the
floor-lookup-based `dma_pool_find_segment` yields for the handle in the
post-allocation state. -/
theorem alloc_local_pointer_translation (p : PoolParams) (st : PoolState)
    (mem : Mem) (call : ProviderCall) (gfp : Nat) (v h : Nat)
    (hs : (dma_pool_alloc p st mem call gfp).outcome = .success v h) :
    ∃ pseg,
      dma_pool_find_segment (dma_pool_alloc p st mem call gfp).st.segs h =
        .found pseg ∧
      v = pseg.virt + (h - pseg.base) := by
  unfold dma_pool_alloc at hs ⊢
  cases hx : vmem_xalloc st call p.block_size p.align p.boundary true with
  | mk addr st1 w i ns =>
    rw [hx] at hs
    cases addr with
    | none => simp at hs
    | some ad =>
      dsimp only at hs ⊢
      cases hf : dma_pool_find_segment st1.segs ad with
      | found pseg =>
        rw [hf] at hs
        dsimp only at hs ⊢
        simp only [AllocOutcome.success.injEq] at hs
        obtain ⟨hv, hh⟩ := hs
        subst hh
        exact ⟨pseg, hf, hv.symm⟩
      | panicked => rw [hf] at hs; simp at hs
      | nullDeref => rw [hf] at hs; simp at hs

/-- C5 witness: the translation statement applied to a concrete successful
allocation. -/
theorem alloc_local_pointer_witness :
    ∃ pseg,
      dma_pool_find_segment (dma_pool_alloc ⟨64, 64, 0⟩ ⟨[], [], []⟩
          (fun _ => 0)
          ⟨true, true, true, true, true, false, ⟨0, 4096, 10000, 7⟩⟩
          0).st.segs 0 = .found pseg ∧
      10000 = pseg.virt + (0 - pseg.base) :=
  alloc_local_pointer_translation ⟨64, 64, 0⟩ ⟨[], [], []⟩ (fun _ => 0)
    ⟨true, true, true, true, true, false, ⟨0, 4096, 10000, 7⟩⟩ 0 10000 0
    (by decide)

/-- Rounding up a multiple of the quantum is the identity. -/
theorem alignUp_of_dvd {a q : Nat} (h : q ∣ a) : alignUp a q = a := by
  unfold alignUp
  rcases Nat.eq_zero_or_pos q with hq | hq
  · simp [hq]
  · obtain ⟨k, rfl⟩ := h
    have hq0 : q ≠ 0 := Nat.pos_iff_ne_zero.mp hq
    rw [if_neg hq0]
    have h1 : q * k + q - 1 = q * k + (q - 1) := by omega
    rw [h1, Nat.mul_add_div hq, Nat.div_eq_of_lt (by omega), Nat.add_zero,
      Nat.mul_comm]

/-- A block whose start is a multiple of its own size never straddles a
boundary that is a multiple of the size. -/
theorem crosses_eq_false {a size bdy : Nat} (hsz : 0 < size) (ha : size ∣ a)
    (hbd : bdy = 0 ∨ size ∣ bdy) : crosses a size bdy = false := by
  unfold crosses
  rcases hbd with rfl | hbd
  · simp
  · rcases Nat.eq_zero_or_pos bdy with rfl | hb
    · simp
    · have hmod : size ∣ a % bdy := (Nat.dvd_mod_iff hbd).mpr ha
      obtain ⟨x, hx⟩ := hmod
      obtain ⟨y, hy⟩ := hbd
      have hrlt : a % bdy < bdy := Nat.mod_lt _ hb
      have hxy : x < y := by
        have h2 := hrlt
        rw [hx, hy] at h2
        exact Nat.lt_of_mul_lt_mul_left h2
      have hrs : a % bdy + size ≤ bdy := by
        rw [hx, hy]
        have h3 : size * x + size = size * (x + 1) := by ring
        rw [h3]
        exact Nat.mul_le_mul_left size hxy
      have hd := Nat.div_add_mod a bdy
      have hexp : bdy * (a / bdy + 1) = bdy * (a / bdy) + bdy := by ring
      have hcomm : a / bdy * bdy = bdy * (a / bdy) := Nat.mul_comm _ _
      have hdiv : (a + size - 1) / bdy = a / bdy := by
        apply Nat.div_eq_of_lt_le
        · omega
        · rw [Nat.succ_mul]
          omega
      simp [hdiv]

/-- Under the block-placement invariant, `fitIn` places a block exactly at
the start of the interval when the interval is long enough. -/
theorem fitIn_eq {s l size align bdy : Nat} (hsz : 0 < size) (ha : align ∣ s)
    (hb : size ∣ s) (hbd : bdy = 0 ∨ size ∣ bdy) :
    fitIn s l size align bdy = if size ≤ l then some s else none := by
  unfold fitIn
  rw [alignUp_of_dvd ha]
  simp only [crosses_eq_false hsz hb hbd, Bool.false_eq_true, if_false]
  by_cases hl : size ≤ l
  · rw [if_pos (by omega), if_pos hl]
  · rw [if_neg (by omega), if_neg hl]

/-- Carving a block off the start of an interval. -/
theorem carve_self {s l size : Nat} :
    carve s l s size =
      if size < l then [(s + size, s + l - (s + size))] else [] := by
  unfold carve
  rw [if_neg (Nat.lt_irrefl s)]
  by_cases h : size < l
  · rw [if_pos (by omega), if_pos h, List.nil_append]
  · rw [if_neg (by omega), if_neg h, List.nil_append]

/-- Under the block-placement invariant, a successful first-fit reservation
returns a well-placed handle and leaves every remaining free interval
well-placed. -/
theorem tryFit_spec (p : PoolParams) (segs : List Segment)
    (hsz : 0 < p.block_size) (hal : p.align ∣ p.block_size)
    (hbd : p.boundary = 0 ∨ p.block_size ∣ p.boundary) :
    ∀ F : List (Nat × Nat), (∀ iv ∈ F, ivOk p segs iv) →
      ∀ a F2, tryFit p.block_size p.align p.boundary F = some (a, F2) →
        handleOk p segs a ∧ ∀ iv ∈ F2, ivOk p segs iv := by
  intro F
  induction F with
  | nil =>
    intro _ a F2 hfit
    simp [tryFit] at hfit
  | cons hd tl ih =>
    obtain ⟨s, l⟩ := hd
    intro hP a F2 hfit
    obtain ⟨hin, hds, hdl⟩ := hP (s, l) (List.mem_cons_self _ _)
    have hals : p.align ∣ s := dvd_trans hal hds
    unfold tryFit at hfit
    rw [fitIn_eq hsz hals hds hbd] at hfit
    by_cases hl : p.block_size ≤ l
    · rw [if_pos hl] at hfit
      dsimp only at hfit
      simp only [Option.some.injEq, Prod.mk.injEq] at hfit
      obtain ⟨rfl, rfl⟩ := hfit
      refine ⟨⟨?_, hds⟩, ?_⟩
      · obtain ⟨g, hg, hg1, hg2⟩ := hin
        exact ⟨g, hg, hg1, by omega⟩
      · intro iv hiv
        rw [carve_self] at hiv
        rcases List.mem_append.mp hiv with hiv | hiv
        · by_cases hlt : p.block_size < l
          · rw [if_pos hlt] at hiv
            simp only [List.mem_singleton] at hiv
            subst hiv
            refine ⟨?_, ?_, ?_⟩
            · obtain ⟨g, hg, hg1, hg2⟩ := hin
              exact ⟨g, hg, by omega, by omega⟩
            · exact dvd_add hds dvd_rfl
            · exact Nat.dvd_sub' (dvd_add hds hdl) (dvd_add hds dvd_rfl)
          · rw [if_neg hlt] at hiv
            simp at hiv
        · exact hP iv (List.mem_cons_of_mem _ hiv)
    · rw [if_neg hl] at hfit
      dsimp only at hfit
      cases hrec : tryFit p.block_size p.align p.boundary tl with
      | none => rw [hrec] at hfit; simp at hfit
      | some pr =>
        obtain ⟨a2, F3⟩ := pr
        rw [hrec] at hfit
        dsimp only at hfit
        simp only [Option.some.injEq, Prod.mk.injEq] at hfit
        obtain ⟨rfl, rfl⟩ := hfit
        obtain ⟨hok, hF3⟩ :=
          ih (fun iv hiv => hP iv (List.mem_cons_of_mem _ hiv)) a2 F3 hrec
        refine ⟨hok, ?_⟩
        intro iv hiv
        rcases List.mem_cons.mp hiv with rfl | hiv
        · exact ⟨hin, hds, hdl⟩
        · exact hF3 iv hiv

/-- Disjointness of segment ranges is symmetric. -/
theorem segDisjoint_symm : Symmetric segDisjoint :=
  fun _ _ h => h.elim Or.inr Or.inl

/-- Two disjoint segments of positive length have distinct base addresses. -/
theorem base_ne_of_disjoint {g t : Segment} (hg : 0 < g.len) (ht : 0 < t.len)
    (hd : segDisjoint g t) : g.base ≠ t.base := by
  unfold segDisjoint at hd
  omega

/-- Inserting a segment whose base address is fresh prepends it. -/
theorem insert_fresh {segs : List Segment} {g : Segment}
    (h : ∀ t ∈ segs, t.base ≠ g.base) :
    rb_tree_insert_node segs g = g :: segs := by
  have hany : segs.any (fun t => t.base == g.base) = false := by
    rw [List.any_eq_false]
    intro t ht
    simpa using h t ht
  unfold rb_tree_insert_node
  simp [hany]

/-- The index only grows under insertion. -/
theorem insert_subset_self (segs : List Segment) (g : Segment) :
    segs ⊆ rb_tree_insert_node segs g := by
  unfold rb_tree_insert_node
  by_cases h : segs.any (fun t => t.base == g.base) = true
  · rw [if_pos h]
    exact fun x hx => hx
  · rw [if_neg h]
    exact fun x hx => List.mem_cons_of_mem _ hx

/-- Containment in a segment is monotone under growing the index. -/
theorem inSeg_mono {segs segs1 : List Segment} (hsub : segs ⊆ segs1)
    {a l : Nat} (h : inSeg segs a l) : inSeg segs1 a l := by
  obtain ⟨g, hg, h1, h2⟩ := h
  exact ⟨g, hsub hg, h1, h2⟩

/-- Well-placedness of a free interval is monotone under growing the index. -/
theorem ivOk_mono {p : PoolParams} {segs segs1 : List Segment}
    (hsub : segs ⊆ segs1) {iv : Nat × Nat} (h : ivOk p segs iv) :
    ivOk p segs1 iv :=
  ⟨inSeg_mono hsub h.1, h.2.1, h.2.2⟩

/-- Well-placedness of a handle is monotone under growing the index. -/
theorem handleOk_mono {p : PoolParams} {segs segs1 : List Segment}
    (hsub : segs ⊆ segs1) {h : Nat} (hh : handleOk p segs h) :
    handleOk p segs1 h :=
  ⟨inSeg_mono hsub hh.1, hh.2⟩

/-- A failing backing-store call leaves the segment index unchanged. -/
theorem alloc_segment_none {segs : List Segment} {call : ProviderCall}
    {sleepOk : Bool} {segs1 : List Segment} {w : Bool}
    (h : dma_pool_alloc_segment segs call sleepOk = (none, segs1, w)) :
    segs1 = segs := by
  unfold dma_pool_alloc_segment at h
  dsimp only at h
  repeat' split at h
  all_goals simp_all

/-- A successful backing-store call delivers exactly the environment's
segment, inserts it into the index and implies the first step succeeded. -/
theorem alloc_segment_some {segs : List Segment} {call : ProviderCall}
    {sleepOk : Bool} {seg : Segment} {segs1 : List Segment} {w : Bool}
    (h : dma_pool_alloc_segment segs call sleepOk = (some seg, segs1, w)) :
    seg = call.seg ∧ segs1 = rb_tree_insert_node segs call.seg ∧
      call.kmemOk = true := by
  unfold dma_pool_alloc_segment at h
  dsimp only at h
  repeat' split at h
  all_goals (try simp_all)
  all_goals
    (obtain ⟨h1, h2, h3⟩ := h
     rw [h1] at h2
     exact h2.symm)

/-- Structural facts about one vmem reservation: the index is unchanged when
no segment was delivered, and a delivered segment is the environment's, was
delivered by a successful first step, marks the call as an import, and is
inserted into the index. -/
theorem vmem_xalloc_segs (st : PoolState) (call : ProviderCall)
    (size align bdy : Nat) (sleepOk : Bool) (addr : Option Nat)
    (st1 : PoolState) (w i : Bool) (ns : Option Segment)
    (hx : vmem_xalloc st call size align bdy sleepOk = ⟨addr, st1, w, i, ns⟩) :
    (ns = none → st1.segs = st.segs) ∧
    (∀ sg, ns = some sg → sg = call.seg ∧ call.kmemOk = true ∧ i = true ∧
      st1.segs = rb_tree_insert_node st.segs call.seg) := by
  unfold vmem_xalloc at hx
  cases htf : tryFit size align bdy st.free with
  | some pr =>
    obtain ⟨a, f⟩ := pr
    rw [htf] at hx
    dsimp only at hx
    simp only [XallocRet.mk.injEq] at hx
    obtain ⟨h1, h2, h3, h4, h5⟩ := hx
    subst h1 h2 h3 h4 h5
    exact ⟨fun _ => rfl, fun sg hsg => Option.noConfusion hsg⟩
  | none =>
    rw [htf] at hx
    dsimp only at hx
    cases hseg : dma_pool_alloc_segment st.segs call sleepOk with
    | mk res rest =>
      obtain ⟨segs1, w2⟩ := rest
      rw [hseg] at hx
      cases res with
      | none =>
        dsimp only at hx
        simp only [XallocRet.mk.injEq] at hx
        obtain ⟨h1, h2, h3, h4, h5⟩ := hx
        subst h1 h2 h3 h4 h5
        have hsegs1 := alloc_segment_none hseg
        exact ⟨fun _ => hsegs1, fun sg hsg => Option.noConfusion hsg⟩
      | some sg0 =>
        obtain ⟨hsg0, hsegs1, hkmem⟩ := alloc_segment_some hseg
        subst hsg0
        dsimp only at hx
        cases htf2 : tryFit size align bdy
            (st.free ++ [(call.seg.base, call.seg.len)]) with
        | some pr2 =>
          obtain ⟨a2, f2⟩ := pr2
          rw [htf2] at hx
          dsimp only at hx
          simp only [XallocRet.mk.injEq] at hx
          obtain ⟨h1, h2, h3, h4, h5⟩ := hx
          subst h1 h2 h3 h4 h5
          refine ⟨fun hns => Option.noConfusion hns, fun sg hsg => ?_⟩
          obtain rfl := Option.some.inj hsg
          exact ⟨rfl, hkmem, rfl, hsegs1⟩
        | none =>
          rw [htf2] at hx
          dsimp only at hx
          simp only [XallocRet.mk.injEq] at hx
          obtain ⟨h1, h2, h3, h4, h5⟩ := hx
          subst h1 h2 h3 h4 h5
          refine ⟨fun hns => Option.noConfusion hns, fun sg hsg => ?_⟩
          obtain rfl := Option.some.inj hsg
          exact ⟨rfl, hkmem, rfl, hsegs1⟩

/-- Block-placement facts about one vmem reservation under the invariant
hypotheses: the index only grows, every free interval stays well-placed, a
granted address is a well-placed handle pushed onto the busy list, and a
refused reservation leaves the busy list unchanged. -/
theorem vmem_xalloc_dvd (p : PoolParams) (st : PoolState) (call : ProviderCall)
    (addr : Option Nat) (st1 : PoolState) (w i : Bool) (ns : Option Segment)
    (hbs : 0 < p.block_size) (hal : p.align ∣ p.block_size)
    (hbd : p.boundary = 0 ∨ p.block_size ∣ p.boundary)
    (hfree : ∀ iv ∈ st.free, ivOk p st.segs iv)
    (hdvdseg : call.kmemOk = true →
      p.block_size ∣ call.seg.base ∧ p.block_size ∣ call.seg.len)
    (hfresh : call.kmemOk = true → ∀ t ∈ st.segs, t.base ≠ call.seg.base)
    (hx : vmem_xalloc st call p.block_size p.align p.boundary true =
      ⟨addr, st1, w, i, ns⟩) :
    st.segs ⊆ st1.segs ∧
    (∀ iv ∈ st1.free, ivOk p st1.segs iv) ∧
    (∀ a, addr = some a → handleOk p st1.segs a ∧ st1.busy = a :: st.busy) ∧
    (addr = none → st1.busy = st.busy) := by
  unfold vmem_xalloc at hx
  cases htf : tryFit p.block_size p.align p.boundary st.free with
  | some pr =>
    obtain ⟨a, f⟩ := pr
    rw [htf] at hx
    dsimp only at hx
    simp only [XallocRet.mk.injEq] at hx
    obtain ⟨h1, h2, h3, h4, h5⟩ := hx
    subst h1 h2 h3 h4 h5
    obtain ⟨hok, hF⟩ := tryFit_spec p st.segs hbs hal hbd st.free hfree a f htf
    refine ⟨fun x hx2 => hx2, hF, ?_, fun hcon => Option.noConfusion hcon⟩
    intro a2 ha2
    obtain rfl := Option.some.inj ha2
    exact ⟨hok, rfl⟩
  | none =>
    rw [htf] at hx
    dsimp only at hx
    cases hseg : dma_pool_alloc_segment st.segs call true with
    | mk res rest =>
      obtain ⟨segs1, w2⟩ := rest
      rw [hseg] at hx
      cases res with
      | none =>
        dsimp only at hx
        simp only [XallocRet.mk.injEq] at hx
        obtain ⟨h1, h2, h3, h4, h5⟩ := hx
        subst h1 h2 h3 h4 h5
        have hsegs1 : segs1 = st.segs := alloc_segment_none hseg
        subst hsegs1
        exact ⟨fun x hx2 => hx2, hfree,
          fun a2 ha2 => Option.noConfusion ha2, fun _ => rfl⟩
      | some sg0 =>
        obtain ⟨hsg0, hsegs1, hkmem⟩ := alloc_segment_some hseg
        subst hsg0
        have hins : rb_tree_insert_node st.segs call.seg =
            call.seg :: st.segs := insert_fresh (hfresh hkmem)
        rw [hins] at hsegs1
        subst hsegs1
        obtain ⟨hb1, hb2⟩ := hdvdseg hkmem
        have hF0 : ∀ iv ∈ st.free ++ [(call.seg.base, call.seg.len)],
            ivOk p (call.seg :: st.segs) iv := by
          intro iv hiv
          rcases List.mem_append.mp hiv with hiv | hiv
          · exact ivOk_mono (fun x hx2 => List.mem_cons_of_mem _ hx2)
              (hfree iv hiv)
          · simp only [List.mem_singleton] at hiv
            subst hiv
            exact ⟨⟨call.seg, List.mem_cons_self _ _, le_refl _, le_refl _⟩,
              hb1, hb2⟩
        dsimp only at hx
        cases htf2 : tryFit p.block_size p.align p.boundary
            (st.free ++ [(call.seg.base, call.seg.len)]) with
        | some pr2 =>
          obtain ⟨a2, f2⟩ := pr2
          rw [htf2] at hx
          dsimp only at hx
          simp only [XallocRet.mk.injEq] at hx
          obtain ⟨h1, h2, h3, h4, h5⟩ := hx
          subst h1 h2 h3 h4 h5
          obtain ⟨hok, hF⟩ := tryFit_spec p (call.seg :: st.segs) hbs hal hbd _
            hF0 a2 f2 htf2
          refine ⟨fun x hx2 => List.mem_cons_of_mem _ hx2, hF, ?_,
            fun hcon => Option.noConfusion hcon⟩
          intro a3 ha3
          obtain rfl := Option.some.inj ha3
          exact ⟨hok, rfl⟩
        | none =>
          rw [htf2] at hx
          dsimp only at hx
          simp only [XallocRet.mk.injEq] at hx
          obtain ⟨h1, h2, h3, h4, h5⟩ := hx
          subst h1 h2 h3 h4 h5
          exact ⟨fun x hx2 => List.mem_cons_of_mem _ hx2, hF0,
            fun a3 ha3 => Option.noConfusion ha3, fun _ => rfl⟩

/-- The state, import flag and delivered segment of `dma_pool_alloc` are
those of the underlying vmem reservation: the address-translation step after
the reservation does not touch them. -/
theorem dma_pool_alloc_components (p : PoolParams) (st : PoolState) (mem : Mem)
    (call : ProviderCall) (gfp : Nat) :
    (dma_pool_alloc p st mem call gfp).st =
      (vmem_xalloc st call p.block_size p.align p.boundary true).st ∧
    (dma_pool_alloc p st mem call gfp).imported =
      (vmem_xalloc st call p.block_size p.align p.boundary true).imported ∧
    (dma_pool_alloc p st mem call gfp).newSeg =
      (vmem_xalloc st call p.block_size p.align p.boundary true).newSeg := by
  unfold dma_pool_alloc
  cases vmem_xalloc st call p.block_size p.align p.boundary true with
  | mk addr st1 w i ns =>
    cases addr with
    | none => exact ⟨rfl, rfl, rfl⟩
    | some ad =>
      dsimp only
      cases dma_pool_find_segment st1.segs ad <;> exact ⟨rfl, rfl, rfl⟩

/-- A successful allocation's handle is the address vmem granted. -/
theorem dma_pool_alloc_success_addr (p : PoolParams) (st : PoolState)
    (mem : Mem) (call : ProviderCall) (gfp : Nat) (v h : Nat)
    (hs : (dma_pool_alloc p st mem call gfp).outcome = .success v h) :
    (vmem_xalloc st call p.block_size p.align p.boundary true).addr =
      some h := by
  unfold dma_pool_alloc at hs
  cases hx : vmem_xalloc st call p.block_size p.align p.boundary true with
  | mk addr st1 w i ns =>
    rw [hx] at hs
    cases addr with
    | none => simp at hs
    | some ad =>
      dsimp only at hs
      cases hf : dma_pool_find_segment st1.segs ad with
      | found pseg =>
        rw [hf] at hs
        dsimp only at hs
        simp only [AllocOutcome.success.injEq] at hs
        simp [hs.2]
      | panicked => rw [hf] at hs; simp at hs
      | nullDeref => rw [hf] at hs; simp at hs

/-- A failed allocation means vmem refused the reservation. -/
theorem dma_pool_alloc_failure_addr (p : PoolParams) (st : PoolState)
    (mem : Mem) (call : ProviderCall) (gfp : Nat)
    (hs : (dma_pool_alloc p st mem call gfp).outcome = .failure) :
    (vmem_xalloc st call p.block_size p.align p.boundary true).addr = none := by
  unfold dma_pool_alloc at hs
  cases hx : vmem_xalloc st call p.block_size p.align p.boundary true with
  | mk addr st1 w i ns =>
    rw [hx] at hs
    cases addr with
    | none => rfl
    | some ad =>
      dsimp only at hs
      cases hf : dma_pool_find_segment st1.segs ad with
      | found pseg => rw [hf] at hs; simp at hs
      | panicked => rw [hf] at hs; simp at hs
      | nullDeref => rw [hf] at hs; simp at hs

/-- C1 counterexample: with `block_size = 48` and `align = 32` the second
allocation returns handle 64, which lies inside the single tracked segment
(base 0) at offset 64 — not a multiple of the block size 48. -/
theorem handle_not_on_block_size_boundary :
    runOps ⟨48, 32, 0⟩
        (initRun [⟨true, true, true, true, true, false, ⟨0, 4096, 10000, 7⟩⟩])
        [.alloc 0, .alloc 0] =
      some ⟨⟨[(48, 16), (112, 3984)], [⟨0, 4096, 10000, 7⟩], [64, 0]⟩, [],
            [64, 0], [⟨0, 4096, 10000, 7⟩]⟩ ∧
    segContains ⟨0, 4096, 10000, 7⟩ 64 ∧ ¬ (48 ∣ (64 - (0 : Nat))) := by
  decide

/-- Whatever insertion does, the result is contained in the cons. -/
theorem insert_subset_cons (segs : List Segment) (g : Segment) :
    rb_tree_insert_node segs g ⊆ g :: segs := by
  unfold rb_tree_insert_node
  by_cases h : segs.any (fun t => t.base == g.base) = true
  · rw [if_pos h]
    exact fun x hx => List.mem_cons_of_mem _ hx
  · rw [if_neg h]
    exact fun x hx => hx

/-- Preservation of the structural invariant across one allocation step
that delivered no new segment, for any resulting handle bookkeeping. -/
theorem SegInv_alloc_none (rs : RunState) (st1 : PoolState) (i : Bool)
    (rets1 : List Nat) (hceq : rs.pool.segs = rs.created)
    (hlens : ∀ g ∈ rs.pool.segs ++ segsOfEnv rs.env, 0 < g.len)
    (hdisj : (rs.pool.segs ++ segsOfEnv rs.env).Pairwise segDisjoint)
    (hsegs : st1.segs = rs.pool.segs) :
    SegInv ⟨st1, if i then rs.env.tail else rs.env, rets1, rs.created⟩ := by
  have hsub2 : (segsOfEnv (if i then rs.env.tail else rs.env)).Sublist
      (segsOfEnv rs.env) := by
    cases i
    · exact List.Sublist.refl _
    · unfold segsOfEnv
      exact List.Sublist.map _ (List.tail_sublist _)
  refine ⟨?_, ?_, ?_⟩
  · exact hsegs.trans hceq
  · intro g hg
    rcases List.mem_append.mp hg with hg | hg
    · exact hlens g (List.mem_append_left _ (hsegs ▸ hg))
    · exact hlens g (List.mem_append_right _ (hsub2.subset hg))
  · have hsub3 : (st1.segs ++
        segsOfEnv (if i then rs.env.tail else rs.env)).Sublist
        (rs.pool.segs ++ segsOfEnv rs.env) := by
      rw [hsegs]
      exact hsub2.append_left _
    exact List.Pairwise.sublist hsub3 hdisj

/-- Preservation of the structural invariant across one allocation step
that delivered a new segment, for any resulting handle bookkeeping. -/
theorem SegInv_alloc_some (rs : RunState) (st1 : PoolState)
    (rets1 : List Nat) (sg : Segment) (hceq : rs.pool.segs = rs.created)
    (hlens : ∀ g ∈ rs.pool.segs ++ segsOfEnv rs.env, 0 < g.len)
    (hdisj : (rs.pool.segs ++ segsOfEnv rs.env).Pairwise segDisjoint)
    (hsg : sg = (rs.env.headD failCall).seg)
    (hkmem : (rs.env.headD failCall).kmemOk = true)
    (hsegs : st1.segs =
      rb_tree_insert_node rs.pool.segs (rs.env.headD failCall).seg) :
    SegInv ⟨st1, rs.env.tail, rets1, sg :: rs.created⟩ := by
  cases henv : rs.env with
  | nil =>
    rw [henv] at hkmem
    simp [failCall] at hkmem
  | cons c tl =>
    rw [henv] at hsg hkmem hsegs hlens hdisj
    simp only [List.headD_cons] at hsg hkmem hsegs
    subst hsg
    have hmap : segsOfEnv (c :: tl) = c.seg :: segsOfEnv tl := rfl
    rw [hmap] at hlens hdisj
    have hdisj3 : ∀ t ∈ rs.pool.segs, segDisjoint t c.seg := fun t ht =>
      (List.pairwise_append.mp hdisj).2.2 t ht c.seg (List.mem_cons_self _ _)
    have hfresh2 : ∀ t ∈ rs.pool.segs, t.base ≠ c.seg.base := fun t ht =>
      base_ne_of_disjoint (hlens t (List.mem_append_left _ ht))
        (hlens c.seg (List.mem_append_right _ (List.mem_cons_self _ _)))
        (hdisj3 t ht)
    rw [insert_fresh hfresh2] at hsegs
    refine ⟨?_, ?_, ?_⟩
    · dsimp only
      rw [hsegs, hceq]
    · intro g hg
      dsimp only at hg
      rw [hsegs, List.cons_append] at hg
      rcases List.mem_cons.mp hg with rfl | hg2
      · exact hlens _ (List.mem_append_right _ (List.mem_cons_self _ _))
      · rcases List.mem_append.mp hg2 with hg3 | hg3
        · exact hlens g (List.mem_append_left _ hg3)
        · exact hlens g
            (List.mem_append_right _ (List.mem_cons_of_mem _ hg3))
    · dsimp only
      rw [hsegs, List.cons_append]
      exact (List.Perm.pairwise_iff (fun h => segDisjoint_symm h)
        List.perm_middle).mp hdisj

/-- Preservation of the divisibility facts about tracked and pending
segments across one allocation step that delivered no new segment. -/
theorem segsDvd_alloc_none (p : PoolParams) (rs : RunState) (st1 : PoolState)
    (i : Bool)
    (hsegsd : ∀ g ∈ rs.pool.segs ++ segsOfEnv rs.env,
      p.block_size ∣ g.base ∧ p.block_size ∣ g.len)
    (hsegs : st1.segs = rs.pool.segs) :
    ∀ g ∈ st1.segs ++ segsOfEnv (if i then rs.env.tail else rs.env),
      p.block_size ∣ g.base ∧ p.block_size ∣ g.len := by
  have hsub2 : (segsOfEnv (if i then rs.env.tail else rs.env)).Sublist
      (segsOfEnv rs.env) := by
    cases i
    · exact List.Sublist.refl _
    · unfold segsOfEnv
      exact List.Sublist.map _ (List.tail_sublist _)
  intro g hg
  rcases List.mem_append.mp hg with hg | hg
  · exact hsegsd g (List.mem_append_left _ (hsegs ▸ hg))
  · exact hsegsd g (List.mem_append_right _ (hsub2.subset hg))

/-- Preservation of the divisibility facts about tracked and pending
segments across one allocation step that delivered a new segment. -/
theorem segsDvd_alloc_some (p : PoolParams) (rs : RunState) (st1 : PoolState)
    (hsegsd : ∀ g ∈ rs.pool.segs ++ segsOfEnv rs.env,
      p.block_size ∣ g.base ∧ p.block_size ∣ g.len)
    (hkmem : (rs.env.headD failCall).kmemOk = true)
    (hsegs : st1.segs =
      rb_tree_insert_node rs.pool.segs (rs.env.headD failCall).seg) :
    ∀ g ∈ st1.segs ++ segsOfEnv rs.env.tail,
      p.block_size ∣ g.base ∧ p.block_size ∣ g.len := by
  have hsub2 : (segsOfEnv rs.env.tail).Sublist (segsOfEnv rs.env) := by
    unfold segsOfEnv
    exact List.Sublist.map _ (List.tail_sublist _)
  intro g hg
  rcases List.mem_append.mp hg with hg | hg
  · have hg2 := (insert_subset_cons _ _) (hsegs ▸ hg)
    rcases List.mem_cons.mp hg2 with rfl | hg3
    · cases henv : rs.env with
      | nil =>
        rw [henv] at hkmem
        simp [failCall] at hkmem
      | cons c tl =>
        simp only [List.headD_cons]
        refine hsegsd c.seg (List.mem_append_right _ ?_)
        rw [henv]
        exact List.mem_cons_self _ _
    · exact hsegsd g (List.mem_append_left _ hg3)
  · exact hsegsd g (List.mem_append_right _ (hsub2.subset hg))

/-- One client step preserves the structural invariant. -/
theorem runStep_preserves_SegInv (p : PoolParams) (rs rs1 : RunState)
    (op : Op) (hS : SegInv rs) (hstep : runStep p rs op = some rs1) :
    SegInv rs1 := by
  obtain ⟨hceq, hlens, hdisj⟩ := hS
  cases op with
  | free h =>
    unfold runStep dma_pool_free vmem_xfree at hstep
    dsimp only at hstep
    by_cases hb : h ∈ rs.pool.busy
    · rw [if_pos hb] at hstep
      simp only [Option.map_some'] at hstep
      obtain rfl := Option.some.inj hstep
      exact ⟨hceq, hlens, hdisj⟩
    · rw [if_neg hb] at hstep
      simp at hstep
  | alloc gfp =>
    unfold runStep at hstep
    dsimp only at hstep
    obtain ⟨hst, him, hns⟩ :=
      dma_pool_alloc_components p rs.pool (fun _ => 0) (rs.env.headD failCall)
        gfp
    cases hx : vmem_xalloc rs.pool (rs.env.headD failCall) p.block_size
        p.align p.boundary true with
    | mk addr st1 w i ns =>
      rw [hx] at hst him hns
      obtain ⟨hn_none, hn_some⟩ :=
        vmem_xalloc_segs rs.pool (rs.env.headD failCall) p.block_size p.align
          p.boundary true addr st1 w i ns hx
      cases ho : (dma_pool_alloc p rs.pool (fun _ => 0)
          (rs.env.headD failCall) gfp).outcome with
      | crash =>
        rw [ho] at hstep
        simp at hstep
      | failure =>
        rw [ho] at hstep
        dsimp only at hstep
        obtain rfl := Option.some.inj hstep
        rw [hst, him, hns]
        cases ns with
        | none =>
          exact SegInv_alloc_none rs st1 i rs.rets hceq hlens hdisj
            (hn_none rfl)
        | some sg =>
          obtain ⟨hsg, hkmem, hi, hsegs⟩ := hn_some sg rfl
          subst hi
          exact SegInv_alloc_some rs st1 rs.rets sg hceq hlens hdisj hsg
            hkmem hsegs
      | success v h2 =>
        rw [ho] at hstep
        dsimp only at hstep
        obtain rfl := Option.some.inj hstep
        rw [hst, him, hns]
        cases ns with
        | none =>
          exact SegInv_alloc_none rs st1 i (h2 :: rs.rets) hceq hlens hdisj
            (hn_none rfl)
        | some sg =>
          obtain ⟨hsg, hkmem, hi, hsegs⟩ := hn_some sg rfl
          subst hi
          exact SegInv_alloc_some rs st1 (h2 :: rs.rets) sg hceq hlens hdisj
            hsg hkmem hsegs

/-- One client step preserves the block-placement invariant. -/
theorem runStep_preserves_DvdInv (p : PoolParams) (rs rs1 : RunState)
    (op : Op) (hbs : 0 < p.block_size) (hal : p.align ∣ p.block_size)
    (hbd : p.boundary = 0 ∨ p.block_size ∣ p.boundary)
    (hS : SegInv rs) (hD : DvdInv p rs)
    (hstep : runStep p rs op = some rs1) : DvdInv p rs1 := by
  obtain ⟨hceq, hlens, hdisj⟩ := hS
  obtain ⟨hfree, hbusy, hrets, hsegsd⟩ := hD
  cases op with
  | free h =>
    unfold runStep dma_pool_free vmem_xfree at hstep
    dsimp only at hstep
    by_cases hb : h ∈ rs.pool.busy
    · rw [if_pos hb] at hstep
      simp only [Option.map_some'] at hstep
      obtain rfl := Option.some.inj hstep
      refine ⟨?_, ?_, ?_, ?_⟩
      · intro iv hiv
        rcases List.mem_cons.mp hiv with rfl | hiv2
        · obtain ⟨hin, hdvd⟩ := hbusy h hb
          exact ⟨hin, hdvd, dvd_rfl⟩
        · exact hfree iv hiv2
      · intro h2 hh2
        exact hbusy h2 (List.mem_of_mem_erase hh2)
      · exact hrets
      · exact hsegsd
    · rw [if_neg hb] at hstep
      simp at hstep
  | alloc gfp =>
    unfold runStep at hstep
    dsimp only at hstep
    have hdvdseg : (rs.env.headD failCall).kmemOk = true →
        p.block_size ∣ (rs.env.headD failCall).seg.base ∧
        p.block_size ∣ (rs.env.headD failCall).seg.len := by
      intro hk
      cases henv : rs.env with
      | nil =>
        rw [henv] at hk
        simp [failCall] at hk
      | cons c tl =>
        simp only [List.headD_cons]
        refine hsegsd c.seg (List.mem_append_right _ ?_)
        rw [henv]
        exact List.mem_cons_self _ _
    have hfresh : (rs.env.headD failCall).kmemOk = true →
        ∀ t ∈ rs.pool.segs, t.base ≠ (rs.env.headD failCall).seg.base := by
      intro hk t ht
      cases henv : rs.env with
      | nil =>
        rw [henv] at hk
        simp [failCall] at hk
      | cons c tl =>
        simp only [List.headD_cons]
        have hmem : c.seg ∈ segsOfEnv rs.env := by
          rw [henv]
          exact List.mem_cons_self _ _
        exact base_ne_of_disjoint (hlens t (List.mem_append_left _ ht))
          (hlens c.seg (List.mem_append_right _ hmem))
          ((List.pairwise_append.mp hdisj).2.2 t ht c.seg hmem)
    obtain ⟨hst, him, hns⟩ :=
      dma_pool_alloc_components p rs.pool (fun _ => 0) (rs.env.headD failCall)
        gfp
    cases hx : vmem_xalloc rs.pool (rs.env.headD failCall) p.block_size
        p.align p.boundary true with
    | mk addr st1 w i ns =>
      rw [hx] at hst him hns
      obtain ⟨hn_none, hn_some⟩ :=
        vmem_xalloc_segs rs.pool (rs.env.headD failCall) p.block_size p.align
          p.boundary true addr st1 w i ns hx
      obtain ⟨hsub, hfree1, hsome, hnone⟩ :=
        vmem_xalloc_dvd p rs.pool (rs.env.headD failCall) addr st1 w i ns hbs
          hal hbd hfree hdvdseg hfresh hx
      cases ho : (dma_pool_alloc p rs.pool (fun _ => 0)
          (rs.env.headD failCall) gfp).outcome with
      | crash =>
        rw [ho] at hstep
        simp at hstep
      | failure =>
        rw [ho] at hstep
        dsimp only at hstep
        obtain rfl := Option.some.inj hstep
        have haddr : addr = none := by
          have hb2 := dma_pool_alloc_failure_addr p rs.pool (fun _ => 0)
            (rs.env.headD failCall) gfp ho
          rw [hx] at hb2
          exact hb2
        rw [hst, him, hns]
        dsimp only
        refine ⟨hfree1, ?_, ?_, ?_⟩
        · intro h2 hh2
          rw [hnone haddr] at hh2
          exact handleOk_mono hsub (hbusy h2 hh2)
        · intro h2 hh2
          exact handleOk_mono hsub (hrets h2 hh2)
        · cases ns with
          | none => exact segsDvd_alloc_none p rs st1 i hsegsd (hn_none rfl)
          | some sg =>
            obtain ⟨hsg, hkmem, hi, hsegs⟩ := hn_some sg rfl
            subst hi
            exact segsDvd_alloc_some p rs st1 hsegsd hkmem hsegs
      | success v h2 =>
        rw [ho] at hstep
        dsimp only at hstep
        obtain rfl := Option.some.inj hstep
        have haddr : addr = some h2 := by
          have hb2 := dma_pool_alloc_success_addr p rs.pool (fun _ => 0)
            (rs.env.headD failCall) gfp v h2 ho
          rw [hx] at hb2
          exact hb2
        obtain ⟨hok2, hbusy2⟩ := hsome h2 haddr
        rw [hst, him, hns]
        dsimp only
        refine ⟨hfree1, ?_, ?_, ?_⟩
        · intro h3 hh3
          rw [hbusy2] at hh3
          rcases List.mem_cons.mp hh3 with rfl | hh4
          · exact hok2
          · exact handleOk_mono hsub (hbusy h3 hh4)
        · intro h3 hh3
          rcases List.mem_cons.mp hh3 with rfl | hh4
          · exact hok2
          · exact handleOk_mono hsub (hrets h3 hh4)
        · cases ns with
          | none => exact segsDvd_alloc_none p rs st1 i hsegsd (hn_none rfl)
          | some sg =>
            obtain ⟨hsg, hkmem, hi, hsegs⟩ := hn_some sg rfl
            subst hi
            exact segsDvd_alloc_some p rs st1 hsegsd hkmem hsegs

/-- The structural invariant holds along every completed run. -/
theorem runOps_preserves_SegInv (p : PoolParams) (ops : List Op) :
    ∀ rs rs1, SegInv rs → runOps p rs ops = some rs1 → SegInv rs1 := by
  induction ops with
  | nil =>
    intro rs rs1 hS hrun
    unfold runOps at hrun
    obtain rfl := Option.some.inj hrun
    exact hS
  | cons op ops ih =>
    intro rs rs1 hS hrun
    unfold runOps at hrun
    cases hst : runStep p rs op with
    | none =>
      rw [hst] at hrun
      exact Option.noConfusion hrun
    | some rs2 =>
      rw [hst] at hrun
      exact ih rs2 rs1 (runStep_preserves_SegInv p rs rs2 op hS hst) hrun

/-- Both invariants hold along every completed run of a pool whose block
size, alignment and boundary satisfy the placement side conditions. -/
theorem runOps_preserves_Inv (p : PoolParams) (hbs : 0 < p.block_size)
    (hal : p.align ∣ p.block_size)
    (hbd : p.boundary = 0 ∨ p.block_size ∣ p.boundary) (ops : List Op) :
    ∀ rs rs1, SegInv rs → DvdInv p rs → runOps p rs ops = some rs1 →
      SegInv rs1 ∧ DvdInv p rs1 := by
  induction ops with
  | nil =>
    intro rs rs1 hS hD hrun
    unfold runOps at hrun
    obtain rfl := Option.some.inj hrun
    exact ⟨hS, hD⟩
  | cons op ops ih =>
    intro rs rs1 hS hD hrun
    unfold runOps at hrun
    cases hst : runStep p rs op with
    | none =>
      rw [hst] at hrun
      exact Option.noConfusion hrun
    | some rs2 =>
      rw [hst] at hrun
      exact ih rs2 rs1 (runStep_preserves_SegInv p rs rs2 op hS hst)
        (runStep_preserves_DvdInv p rs rs2 op hbs hal hbd hS hD hst) hrun

/-- The structural invariant holds for a freshly created pool. -/
theorem initRun_SegInv (env : List ProviderCall)
    (henv1 : ∀ c ∈ env, 0 < c.seg.len)
    (hdisj : (segsOfEnv env).Pairwise segDisjoint) :
    SegInv (initRun env) := by
  refine ⟨rfl, ?_, ?_⟩
  · intro g hg
    dsimp only [initRun] at hg
    rw [List.nil_append] at hg
    obtain ⟨c, hc, rfl⟩ := List.mem_map.mp hg
    exact henv1 c hc
  · dsimp only [initRun]
    rw [List.nil_append]
    exact hdisj

/-- The block-placement invariant holds for a freshly created pool. -/
theorem initRun_DvdInv (p : PoolParams) (env : List ProviderCall)
    (henvd : ∀ c ∈ env,
      p.block_size ∣ c.seg.base ∧ p.block_size ∣ c.seg.len) :
    DvdInv p (initRun env) := by
  refine ⟨?_, ?_, ?_, ?_⟩
  · intro iv hiv
    simp [initRun] at hiv
  · intro h hh
    simp [initRun] at hh
  · intro h hh
    simp [initRun] at hh
  · intro g hg
    dsimp only [initRun] at hg
    rw [List.nil_append] at hg
    obtain ⟨c, hc, rfl⟩ := List.mem_map.mp hg
    exact henvd c hc

/-- C1 amended: for every sequence of allocate/free calls on a pool whose
alignment divides its block size, whose boundary is zero or a multiple of the
block size, and whose backing-store provider only delivers pairwise-disjoint
segments of positive length with base and length multiples of the block
size, every handle returned by allocate lies within the bus-address range of
exactly one tracked segment, and its offset from that segment's base is an
exact multiple of the pool's block size. -/
theorem allocated_handles_lie_in_unique_segment (p : PoolParams)
    (env : List ProviderCall) (ops : List Op) (rs1 : RunState)
    (hbs : 0 < p.block_size) (hal : p.align ∣ p.block_size)
    (hbd : p.boundary = 0 ∨ p.block_size ∣ p.boundary)
    (henv : ∀ c ∈ env, p.block_size ∣ c.seg.base ∧
      p.block_size ∣ c.seg.len ∧ 0 < c.seg.len)
    (hdisj : (segsOfEnv env).Pairwise segDisjoint)
    (hrun : runOps p (initRun env) ops = some rs1) :
    ∀ h ∈ rs1.rets, ∃ g, g ∈ rs1.pool.segs ∧ segContains g h ∧
      p.block_size ∣ (h - g.base) ∧
      ∀ g2, g2 ∈ rs1.pool.segs → segContains g2 h → g2 = g := by
  have hS0 := initRun_SegInv env (fun c hc => (henv c hc).2.2) hdisj
  have hD0 := initRun_DvdInv p env
    (fun c hc => ⟨(henv c hc).1, (henv c hc).2.1⟩)
  obtain ⟨hS, hD⟩ := runOps_preserves_Inv p hbs hal hbd ops _ _ hS0 hD0 hrun
  intro h hh
  obtain ⟨⟨g, hgmem, hgle, hgbound⟩, hdvdh⟩ := hD.retsOk h hh
  have hglen := hS.lens g (List.mem_append_left _ hgmem)
  have hdvdb := (hD.segsDvd g (List.mem_append_left _ hgmem)).1
  refine ⟨g, hgmem, ⟨hgle, by omega⟩, Nat.dvd_sub' hdvdh hdvdb, ?_⟩
  intro g2 hg2m hg2c
  by_contra hne
  have hpair : rs1.pool.segs.Pairwise segDisjoint :=
    (List.pairwise_append.mp hS.disj).1
  have hd := hpair.forall segDisjoint_symm hg2m hgmem hne
  obtain ⟨hc1, hc2⟩ := hg2c
  unfold segDisjoint at hd
  omega

/-- C1 witness: the amended statement applied to one allocation from a
single 4096-byte segment at base 0 with 64-byte blocks (handle 0 lies in
that segment at offset 0). -/
theorem allocated_handles_witness :
    ∃ g, g ∈ (⟨[(64, 4032)], [⟨0, 4096, 10000, 7⟩], [0]⟩ : PoolState).segs ∧
      segContains g 0 ∧ (64 : Nat) ∣ (0 - g.base) ∧
      ∀ g2,
        g2 ∈ (⟨[(64, 4032)], [⟨0, 4096, 10000, 7⟩], [0]⟩ : PoolState).segs →
        segContains g2 0 → g2 = g :=
  allocated_handles_lie_in_unique_segment ⟨64, 64, 0⟩
    [⟨true, true, true, true, true, false, ⟨0, 4096, 10000, 7⟩⟩] [.alloc 0]
    ⟨⟨[(64, 4032)], [⟨0, 4096, 10000, 7⟩], [0]⟩, [], [0],
      [⟨0, 4096, 10000, 7⟩]⟩
    (by decide) (by decide) (Or.inl rfl) (by decide) (by decide) (by decide)
    0 (by decide)

/-- C9: along every completed run of a pool from creation (with the provider
contract that delivered segments are pairwise disjoint and of positive
length), destroy releases exactly the segments the backing store ever
delivered to the pool, each exactly once, and then the pool's own
bookkeeping is discarded. -/
theorem destroy_releases_each_created_segment_once (p : PoolParams)
    (env : List ProviderCall) (ops : List Op) (rs1 : RunState)
    (henv1 : ∀ c ∈ env, 0 < c.seg.len)
    (hdisj : (segsOfEnv env).Pairwise segDisjoint)
    (hrun : runOps p (initRun env) ops = some rs1) :
    dma_pool_destroy rs1.pool = rs1.created ∧ rs1.created.Nodup := by
  have hS := runOps_preserves_SegInv p ops _ _
    (initRun_SegInv env henv1 hdisj) hrun
  obtain ⟨hceq, hlens, hdisj2⟩ := hS
  refine ⟨hceq, ?_⟩
  rw [← hceq]
  have hpair : rs1.pool.segs.Pairwise segDisjoint :=
    (List.pairwise_append.mp hdisj2).1
  refine List.Pairwise.imp_of_mem ?_ hpair
  intro a b ha hb hd he
  subst he
  have hl := hlens a (List.mem_append_left _ ha)
  unfold segDisjoint at hd
  omega

/-- C9 witness: the statement applied to one allocation from a single
4096-byte segment at base 4096. -/
theorem destroy_releases_witness :
    dma_pool_destroy ⟨[(4160, 4032)], [⟨4096, 4096, 20000, 3⟩], [4096]⟩ =
      [⟨4096, 4096, 20000, 3⟩] ∧
    ([⟨4096, 4096, 20000, 3⟩] : List Segment).Nodup :=
  destroy_releases_each_created_segment_once ⟨64, 64, 0⟩
    [⟨true, true, true, true, true, false, ⟨4096, 4096, 20000, 3⟩⟩]
    [.alloc 0]
    ⟨⟨[(4160, 4032)], [⟨4096, 4096, 20000, 3⟩], [4096]⟩, [], [4096],
      [⟨4096, 4096, 20000, 3⟩]⟩
    (by decide) (by decide) (by decide)

end DmaPool
